import Mathlib

/-!
Verification of the K3 MRL (Matryoshka) indexer core
(`src/antigravity/k3_mrl_indexer.py`) against its specification.

Modelling conventions (shallow embedding):
* Python strings are `List Char` (`Text`); `len`, slicing and `str.split`
  translate to list length, `take` and an explicit newline splitter.
* `hashlib.md5(...).hexdigest()` is an external library primitive; it is
  modelled as an ideal injective digest (the identity on the hashed text),
  which is the behaviour the indexer relies on for change detection.
* Embedding vectors are `List ℚ`.  The only non-rational operation in the
  search path is the square root inside `np.linalg.norm`; it is abstracted
  as an explicit function parameter `sqrtA : ℚ → ℚ`, every other arithmetic
  step (dot products, the `1e-9` epsilon, divisions) is exact.
* `np.argsort(x)[::-1]` is modelled as the reversal of a stable ascending
  argsort, i.e. sorting indices by descending score with ties ordered by
  descending index.
* The external embedding call (`client.models.embed_content`) is passed in
  as an `Except Unit` value: `Except.ok` is a successful response,
  `Except.error` an exception raised by the client.
* Filesystem state for `save_index` is a record of the contents at the
  snapshot path and at the temporary path; the body of `save_index` is a
  trace of the states the filesystem passes through.
-/

namespace K3MRL

/-- Python strings, as lists of characters. -/
abbrev Text := List Char

/-! ### `sanitize_content` (k3_mrl_indexer.py, lines 101–105) -/

/-- Characters matched by Python's regex class `\s` (ASCII range). -/
def isSpaceChar (c : Char) : Bool :=
  c = ' ' || c = '\t' || c = '\n' || c = '\r' || c = '\x0b' || c = '\x0c'

/-- Scan for the adjacent pair `](` of the pattern `!\[.*?\]\(.*?\)`,
without crossing a newline (`.` does not match `\n`); returns the
remainder after the pair. -/
def scanBrkParen : Text → Option Text
  | [] => none
  | ']' :: '(' :: r => some r
  | '\n' :: _ => none
  | _ :: r => scanBrkParen r

/-- Scan for the closing `)` of `!\[.*?\]\(.*?\)`, without crossing a
newline; returns the remainder after it. -/
def scanParen : Text → Option Text
  | [] => none
  | ')' :: r => some r
  | '\n' :: _ => none
  | _ :: r => scanParen r

theorem scanBrkParen_length (s : Text) : ∀ r, scanBrkParen s = some r → r.length + 2 ≤ s.length := by
  induction s using scanBrkParen.induct with
  | case1 => intro r h; simp [scanBrkParen] at h
  | case2 r0 =>
    intro r h
    simp only [scanBrkParen, Option.some.injEq] at h
    subst h
    simp
  | case3 => intro r h; simp [scanBrkParen] at h
  | case4 c r0 h1 h2 ih =>
    intro r h
    simp only [scanBrkParen] at h
    have := ih r h
    simp
    omega

theorem scanParen_length (s : Text) : ∀ r, scanParen s = some r → r.length + 1 ≤ s.length := by
  induction s using scanParen.induct with
  | case1 => intro r h; simp [scanParen] at h
  | case2 r0 =>
    intro r h
    simp only [scanParen, Option.some.injEq] at h
    subst h
    simp
  | case3 => intro r h; simp [scanParen] at h
  | case4 c r0 h1 h2 ih =>
    intro r h
    simp only [scanParen] at h
    have := ih r h
    simp
    omega

theorem scanImg_length {s r : Text} (h : (scanBrkParen s).bind scanParen = some r) :
    r.length + 3 ≤ s.length := by
  cases hb : scanBrkParen s with
  | none => rw [hb] at h; simp at h
  | some m =>
    rw [hb] at h
    have h1 := scanBrkParen_length s m hb
    have h2 := scanParen_length m r h
    omega

/-- First regex pass of `sanitize_content`, fueled so that the recursion
is structural (each step consumes at least one character, so fuel equal
to the remaining length — see `scanImg_length` — never runs out before
the text does).  `re.sub(r"!\[.*?\]\(.*?\)", "", text)` removes inline
markdown image references: lazy quantifiers together with left-to-right
scanning mean that at the first `![` the match takes the first following
`](` on the same line, then the first following `)` on the same line; if
no complete match starts at this position, scanning moves one character
forward. -/
def stripImagesFuel : Nat → Text → Text
  | 0, s => s
  | _ + 1, [] => []
  | fuel + 1, '!' :: '[' :: rest =>
    match (scanBrkParen rest).bind scanParen with
    | some rem => stripImagesFuel fuel rem
    | none => '!' :: stripImagesFuel fuel ('[' :: rest)
  | fuel + 1, c :: r => c :: stripImagesFuel fuel r

/-- `re.sub(r"!\[.*?\]\(.*?\)", "", text)`. -/
def stripImages (s : Text) : Text := stripImagesFuel s.length s

/-- Second regex pass of `sanitize_content`:
`re.sub(r"\s+", " ", text)` — collapse each whitespace run to a single
space.  The boolean records whether the previous character was part of a
whitespace run. -/
def collapseWsAux : Bool → Text → Text
  | _, [] => []
  | prevSp, c :: r =>
    if isSpaceChar c then
      if prevSp then collapseWsAux true r else ' ' :: collapseWsAux true r
    else c :: collapseWsAux false r

/-- Python `str.strip()`: drop leading and trailing whitespace. -/
def pyStrip (s : Text) : Text :=
  ((s.dropWhile isSpaceChar).reverse.dropWhile isSpaceChar).reverse

/-- `sanitize_content` (lines 101–105): remove markdown image references,
collapse whitespace runs to single spaces, strip the ends. -/
def sanitize_content (text : Text) : Text :=
  pyStrip (collapseWsAux false (stripImages text))

/-- `get_file_hash` (lines 98–99): `hashlib.md5(text).hexdigest()`.
The md5 library call is modelled as an ideal injective digest — the
identity on the hashed text — which is exactly the collision-freeness the
incremental-update logic assumes of it. -/
def get_file_hash (text : Text) : Text := text

/-! ### `_text_splitter` (lines 202–234) -/

/-- Python `text.split("\n")` on character lists: a character other than
`'\n'` is prepended to the first piece of the split of the rest. -/
def splitNl : Text → List Text
  | [] => [[]]
  | '\n' :: r => [] :: splitNl r
  | c :: r => (c :: (splitNl r).headD []) :: (splitNl r).tail

/-- Python newline-join of pieces (`"\n".join(pieces)`) on character lists. -/
def joinNl : List Text → Text
  | [] => []
  | [c] => c
  | c :: r => c ++ '\n' :: joinNl r

/-- The running loop of `_text_splitter`: `acc` is `current_chunk` (in
order), `accLen` is `current_len`; whenever adding the next line would
exceed `limit` and the current chunk is non-empty, the chunk is flushed. -/
def chunkLinesGo (limit : Nat) : List Text → List Text → Nat → List (List Text)
  | [], acc, _ => if acc = [] then [] else [acc]
  | line :: rest, acc, accLen =>
    if accLen + (line.length + 1) > limit ∧ acc ≠ [] then
      acc :: chunkLinesGo limit rest [line] (line.length + 1)
    else
      chunkLinesGo limit rest (acc ++ [line]) (accLen + (line.length + 1))

/-- Line-level body of `_text_splitter` for an over-limit segment. -/
def chunkLines (lines : List Text) (limit : Nat) : List (List Text) :=
  chunkLinesGo limit lines [] 0

/-- Chunk suffix `::<base_id>` for an unsplit segment. -/
def suffixBase (baseId : Text) : Text := "::".toList ++ baseId

/-- Chunk suffix `::<base_id>[<idx>]` for a split segment. -/
def suffixIdx (baseId : Text) (i : Nat) : Text :=
  "::".toList ++ baseId ++ "[".toList ++ (toString i).toList ++ "]".toList

/-- `_text_splitter` (lines 202–234): a segment within the limit is
emitted unchanged; otherwise it is split line by line with an
incrementing chunk index. -/
def textSplitter (text : Text) (baseId : Text) (limit : Nat) : List (Text × Text) :=
  if text.length ≤ limit then [(text, suffixBase baseId)]
  else
    (chunkLines (splitNl text) limit).enum.map
      (fun p => (joinNl p.2, suffixIdx baseId p.1))

/-! ### Lemmas about the line splitter -/

theorem splitNl_ne_nil (s : Text) : splitNl s ≠ [] := by
  cases s with
  | nil => simp [splitNl]
  | cons c r =>
    by_cases h : c = '\n'
    · subst h; simp [splitNl]
    · rw [show splitNl (c :: r) = (c :: (splitNl r).headD []) :: (splitNl r).tail from by
        cases hc : c <;> simp_all [splitNl]]
      simp

theorem joinNl_cons {l : List Text} (c : Text) (h : l ≠ []) :
    joinNl (c :: l) = c ++ '\n' :: joinNl l := by
  match l with
  | [] => exact absurd rfl h
  | d :: t => rfl

theorem joinNl_splitNl (s : Text) : joinNl (splitNl s) = s := by
  induction s using splitNl.induct with
  | case1 => simp [splitNl, joinNl]
  | case2 r ih =>
    simp only [splitNl]
    rw [joinNl_cons [] (splitNl_ne_nil r)]
    simp [ih]
  | case3 c r h ih =>
    simp only [splitNl]
    cases hs : splitNl r with
    | nil => exact absurd hs (splitNl_ne_nil r)
    | cons hd tl =>
      rw [hs] at ih
      cases tl with
      | nil =>
        simp only [List.headD_cons, List.tail_cons, joinNl] at *
        simp [ih]
      | cons d t =>
        simp only [List.headD_cons, List.tail_cons] at *
        rw [joinNl_cons (c :: hd) (by simp), joinNl_cons hd (by simp)] at *
        simp only [List.cons_append]
        rw [ih]

theorem mem_splitNl_no_newline (s : Text) : ∀ l ∈ splitNl s, '\n' ∉ l := by
  induction s using splitNl.induct with
  | case1 => simp [splitNl]
  | case2 r ih =>
    simp only [splitNl]
    intro l hl
    rcases List.mem_cons.mp hl with rfl | hl
    · simp
    · exact ih l hl
  | case3 c r h ih =>
    simp only [splitNl]
    cases hs : splitNl r with
    | nil => exact absurd hs (splitNl_ne_nil r)
    | cons hd tl =>
      rw [hs] at ih
      simp only [List.headD_cons, List.tail_cons]
      intro l hl
      rcases List.mem_cons.mp hl with rfl | hl
      · intro hmem
        rcases List.mem_cons.mp hmem with h1 | h1
        · exact h h1.symm
        · exact ih hd (by simp) h1
      · exact ih l (List.mem_cons_of_mem _ hl)

/-- Total character length a chunk of lines contributes to `current_len`:
each line counts its length plus one for the newline. -/
def sumLen (c : List Text) : Nat := (c.map (fun l => l.length + 1)).sum

theorem sumLen_append (a b : List Text) : sumLen (a ++ b) = sumLen a + sumLen b := by
  simp [sumLen]

theorem joinNl_length {c : List Text} (h : c ≠ []) :
    (joinNl c).length + 1 = sumLen c := by
  induction c with
  | nil => exact absurd rfl h
  | cons d t ih =>
    cases t with
    | nil => simp [joinNl, sumLen]
    | cons e t2 =>
      rw [joinNl_cons d (by simp)]
      have := ih (by simp)
      simp only [sumLen, List.map_cons, List.sum_cons] at *
      simp only [List.length_append, List.length_cons]
      omega

theorem chunkLinesGo_join (limit : Nat) (lines : List Text) :
    ∀ acc accLen, (chunkLinesGo limit lines acc accLen).flatten = acc ++ lines := by
  induction lines with
  | nil =>
    intro acc accLen
    simp only [chunkLinesGo]
    split
    · simp [*]
    · simp
  | cons line rest ih =>
    intro acc accLen
    simp only [chunkLinesGo]
    split
    · simp [ih]
    · simp [ih]

theorem chunkLinesGo_ne_nil (limit : Nat) (lines : List Text) :
    ∀ acc accLen c, c ∈ chunkLinesGo limit lines acc accLen → c ≠ [] := by
  induction lines with
  | nil =>
    intro acc accLen c hc
    simp only [chunkLinesGo] at hc
    split at hc
    · simp at hc
    · rcases List.mem_singleton.mp hc with rfl
      assumption
  | cons line rest ih =>
    intro acc accLen c hc
    simp only [chunkLinesGo] at hc
    split at hc
    · rcases List.mem_cons.mp hc with rfl | hc
      · rename_i hcond; exact hcond.2
      · exact ih _ _ c hc
    · exact ih _ _ c hc

theorem chunkLinesGo_bound (limit : Nat) (lines : List Text) :
    ∀ acc accLen, accLen = sumLen acc → (acc.length ≤ 1 ∨ accLen ≤ limit) →
      ∀ c ∈ chunkLinesGo limit lines acc accLen, c.length ≤ 1 ∨ sumLen c ≤ limit := by
  induction lines with
  | nil =>
    intro acc accLen hlen hinv c hc
    simp only [chunkLinesGo] at hc
    split at hc
    · simp at hc
    · rcases List.mem_singleton.mp hc with rfl
      omega
  | cons line rest ih =>
    intro acc accLen hlen hinv c hc
    simp only [chunkLinesGo] at hc
    split at hc
    · rcases List.mem_cons.mp hc with rfl | hc
      · omega
      · exact ih [line] (line.length + 1) (by simp [sumLen]) (Or.inl (by simp)) c hc
    · rename_i hcond
      rcases Decidable.not_and_iff_or_not.mp hcond with hle | hne
      · exact ih (acc ++ [line]) _ (by simp [sumLen_append, sumLen, hlen])
          (Or.inr (by omega)) c hc
      · have hacc : acc = [] := Decidable.of_not_not hne
        subst hacc
        exact ih [line] _ (by simp [sumLen, hlen]) (Or.inl (by simp)) c hc

theorem mem_chunkLines_sub (limit : Nat) (lines : List Text) :
    ∀ c ∈ chunkLines lines limit, ∀ l ∈ c, l ∈ lines := by
  intro c hc l hl
  have hj := chunkLinesGo_join limit lines [] 0
  have : l ∈ (chunkLinesGo limit lines [] 0).flatten := List.mem_flatten.mpr ⟨c, hc, hl⟩
  rw [hj] at this
  simpa using this

theorem joinNl_append {a b : List Text} (ha : a ≠ []) (hb : b ≠ []) :
    joinNl (a ++ b) = joinNl a ++ '\n' :: joinNl b := by
  induction a with
  | nil => exact absurd rfl ha
  | cons d t ih =>
    cases t with
    | nil =>
      rw [List.singleton_append, joinNl_cons d hb]
      simp [joinNl]
    | cons e t2 =>
      rw [List.cons_append, joinNl_cons d (by simp), joinNl_cons d (by simp)]
      rw [ih (by simp)]
      simp

theorem flatten_ne_nil_of_ne {P : List (List Text)} (hP : P ≠ [])
    (hne : ∀ p ∈ P, p ≠ []) : P.flatten ≠ [] := by
  cases P with
  | nil => exact absurd rfl hP
  | cons c t =>
    have : c ≠ [] := hne c (by simp)
    cases c with
    | nil => exact absurd rfl this
    | cons x xs => simp

theorem joinNl_map_joinNl {P : List (List Text)} (hne : ∀ p ∈ P, p ≠ []) :
    joinNl (P.map joinNl) = joinNl P.flatten := by
  induction P with
  | nil => simp [joinNl]
  | cons c rest ih =>
    cases hr : rest with
    | nil => simp [joinNl]
    | cons d t =>
      rw [← hr]
      have hrne : rest ≠ [] := by simp [hr]
      have hcne : c ≠ [] := hne c (by simp)
      have hjoin_ne : rest.flatten ≠ [] := flatten_ne_nil_of_ne hrne (fun p hp => hne p (by simp [hp]))
      have hmapne : rest.map joinNl ≠ [] := by simp [hr]
      rw [List.map_cons, joinNl_cons _ hmapne, List.flatten_cons, joinNl_append hcne hjoin_ne]
      rw [ih (fun p hp => hne p (by simp [hp]))]

/-! ### The index store (`self.index`, line 41) -/

/-- One stored record: `{ 'vector': np.array, 'hash': str, 'snippet': str }`. -/
structure Entry where
  vector : List ℚ
  hash : Text
  snippet : Text
deriving DecidableEq

/-- `self.index`: mapping from chunk key to record.  Python dicts preserve
insertion order, so the store is an ordered association list with unique
keys; `list(self.index.keys())` is its key list in order. -/
abbrev Store := List (String × Entry)

/-- Python dict lookup `self.index[key]` / `key in self.index`. -/
def lookupKey (index : Store) (key : String) : Option Entry :=
  match index with
  | [] => none
  | e :: r => if e.1 = key then some e.2 else lookupKey r key

/-! ### Incremental dedup check (`run_indexing`, lines 295–313) -/

/-- Batch size (`BATCH_SIZE`, line 23). -/
def BATCH_SIZE : Nat := 5

/-- The incremental check of `run_indexing` (lines 304–307): the chunk key
is present, the stored hash equals the digest of the sanitized text, and
the stored vector has the configured dimension. -/
def upToDate (index : Store) (dimension : Nat) (key : String) (clean : Text) : Bool :=
  match lookupKey index key with
  | some e => decide (e.hash = get_file_hash clean) && decide (e.vector.length = dimension)
  | none => false

/-- The queue-building loop of `run_indexing` (lines 295–309): sanitize
each chunk, drop chunks that are empty after sanitization, skip chunks
that pass the incremental check, enqueue the rest as `(key, clean_text)`. -/
def enqueuePending (index : Store) (dimension : Nat)
    (chunks : List (String × Text)) : List (String × Text) :=
  chunks.filterMap (fun kt =>
    let clean := sanitize_content kt.2
    if clean = [] then none
    else if upToDate index dimension kt.1 clean then none
    else some (kt.1, clean))

/-- Grouping of the pending queue into batches of `BATCH_SIZE`, fueled so
that the recursion is structural (each step consumes at least one list
element, so fuel equal to the list length never runs out early). -/
def batchesOfFuel : Nat → List α → List (List α)
  | 0, _ => []
  | _ + 1, [] => []
  | fuel + 1, x :: r => (x :: r.take (BATCH_SIZE - 1)) :: batchesOfFuel fuel (r.drop (BATCH_SIZE - 1))

/-- Grouping of the pending queue into batches of `BATCH_SIZE`
(lines 311–320); one embedding call is issued per batch. -/
def batchesOf (l : List α) : List (List α) := batchesOfFuel l.length l

/-- Python `zip(a, b, c)`: truncates to the shortest input. -/
def zip3 : List α → List β → List γ → List (α × β × γ)
  | a :: as, b :: bs, c :: cs => (a, b, c) :: zip3 as bs cs
  | _, _, _ => []

/-- `_embed_batch_worker` (lines 147–175): on a successful response, pair
paths, returned vectors and texts; the hash is computed from the text that
was actually embedded, and the snippet is its first 200 characters
(`text[:200]`).  On an exception the batch yields no results. -/
def embedBatchWorker (batch : List (String × Text))
    (resp : Except Unit (List (List ℚ))) : List (String × List ℚ × Text × Text) :=
  match resp with
  | .error _ => []
  | .ok vectors =>
    (zip3 (batch.map Prod.fst) vectors (batch.map Prod.snd)).map
      (fun t => (t.1, t.2.1, get_file_hash t.2.2, t.2.2.take 200))

/-! ### `save_index` (lines 78–96) -/

/-- Contents of the two filesystem paths `save_index` touches: the
snapshot file (`self.index_file`) and the temporary file (`.tmp`).
`none` means the path does not exist. -/
structure FsState (α : Type) where
  indexFile : Option α
  tempFile : Option α
deriving DecidableEq

/-- The sequence of filesystem states `save_index` passes through when
there are unsaved changes: initial state, after `pickle.dump` to the temp
file, after `self.index_file.unlink()` (only taken when the snapshot file
exists), after `temp_file.rename(self.index_file)`.  With no unsaved
changes the function returns immediately. -/
def saveTrace (fs : FsState α) (store : α) (unsavedChanges : Nat) : List (FsState α) :=
  if unsavedChanges = 0 then [fs]
  else
    let afterWrite : FsState α := { fs with tempFile := some store }
    let afterUnlink : FsState α :=
      if afterWrite.indexFile.isSome then { afterWrite with indexFile := none } else afterWrite
    let afterRename : FsState α := { afterUnlink with indexFile := some store, tempFile := none }
    [fs, afterWrite, afterUnlink, afterRename]

/-- The atomicity guarantee claimed for `save_index`: at every moment the
snapshot file holds either the complete prior version or the complete new
version. -/
def atomicSnapshot (fs : FsState α) (store : α) (unsavedChanges : Nat) : Prop :=
  ∀ s ∈ saveTrace fs store unsavedChanges,
    s.indexFile = fs.indexFile ∨ s.indexFile = some store

/-! ### `search` (lines 358–451) -/

/-- Shortlist dimension (`SHORTLIST_DIM`, line 362). -/
def SHORTLIST_DIM : Nat := 64

/-- Shortlist factor (`SHORTLIST_FACTOR`, line 363). -/
def SHORTLIST_FACTOR : Nat := 15

/-- The `1e-9` stabilizing epsilon added to each norm (lines 393, 395). -/
def EPS : ℚ := 1 / 1000000000

/-- Dot product (`np.dot` on equal-length vectors). -/
def dot (a b : List ℚ) : ℚ := (List.zipWith (· * ·) a b).sum

/-- `np.linalg.norm v`, with the square root abstracted as `sqrtA`. -/
def l2norm (sqrtA : ℚ → ℚ) (v : List ℚ) : ℚ := sqrtA (dot v v)

/-- Row normalization `v / (np.linalg.norm(v) + 1e-9)`. -/
def normalize (sqrtA : ℚ → ℚ) (v : List ℚ) : List ℚ :=
  v.map (fun x => x / (l2norm sqrtA v + EPS))

/-- Cosine similarity as computed by `search`: dot product of the two
separately normalized vectors. -/
def cosSim (sqrtA : ℚ → ℚ) (m q : List ℚ) : ℚ :=
  dot (normalize sqrtA m) (normalize sqrtA q)

/-- Order on indices realized by `np.argsort(scores)[::-1]` under the
stable-sort reading: descending score, ties by descending index (the
reversal of a stable ascending sort puts the later index first). -/
def rDesc (s : List ℚ) (i j : Nat) : Prop :=
  s.getD j 0 < s.getD i 0 ∨ (s.getD i 0 = s.getD j 0 ∧ j ≤ i)

instance (s : List ℚ) : DecidableRel (rDesc s) := fun i j =>
  inferInstanceAs (Decidable (_ ∨ _))

instance (s : List ℚ) : IsTotal Nat (rDesc s) where
  total i j := by
    rcases lt_trichotomy (s.getD i 0) (s.getD j 0) with h | h | h
    · exact Or.inr (Or.inl h)
    · rcases Nat.le_total i j with hij | hij
      · exact Or.inr (Or.inr ⟨h.symm, hij⟩)
      · exact Or.inl (Or.inr ⟨h, hij⟩)
    · exact Or.inl (Or.inl h)

instance (s : List ℚ) : IsTrans Nat (rDesc s) where
  trans i j k hij hjk := by
    rcases hij with h1 | ⟨h1, h1'⟩ <;> rcases hjk with h2 | ⟨h2, h2'⟩
    · exact Or.inl (h2.trans h1)
    · exact Or.inl (h2 ▸ h1)
    · exact Or.inl (h1 ▸ h2)
    · exact Or.inr ⟨h1.trans h2, h2'.trans h1'⟩

/-- `np.argsort(s)[::-1]`: the indices `0, …, len s - 1` sorted by
descending score, ties ordered by descending index. -/
def argsortDescIdx (s : List ℚ) : List Nat :=
  List.insertionSort (rDesc s) (List.range s.length)

/-- Stage-1 scores (lines 387–397): cosine similarity between the first
`SHORTLIST_DIM` components of each stored vector and of the query. -/
def stage1Scores (sqrtA : ℚ → ℚ) (store : Store) (qVec : List ℚ) : List ℚ :=
  (store.map (fun e => e.2.vector)).map
    (fun v => cosSim sqrtA (v.take SHORTLIST_DIM) (qVec.take SHORTLIST_DIM))

/-- Stage-1 candidate selection (lines 399–401):
`candidate_idxs = np.argsort(scores_short)[::-1][:k_cand]` with
`k_cand = min(top_k * SHORTLIST_FACTOR, len(paths))`. -/
def stage1CandidateIdxs (sqrtA : ℚ → ℚ) (store : Store) (qVec : List ℚ) (topK : Nat) : List Nat :=
  (argsortDescIdx (stage1Scores sqrtA store qVec)).take
    (min (topK * SHORTLIST_FACTOR) store.length)

/-- The keys of the stage-1 shortlist, in shortlist order. -/
def stage1CandidateKeys (sqrtA : ℚ → ℚ) (store : Store) (qVec : List ℚ) (topK : Nat) : List String :=
  (stage1CandidateIdxs sqrtA store qVec topK).map
    (fun i => (store.map Prod.fst).getD i "")

/-- One record of the list returned by `search`:
`{"path": …, "score": …, "snippet": …}` (lines 436–438). -/
structure SearchResult where
  path : String
  score : ℚ
  snippet : Text
deriving DecidableEq

/-- Stage-2 scores (lines 403–411): the shortlisted rows
`matrix[candidate_idxs]` and the query are normalized at full dimension
and cosine similarity is recomputed. -/
def stage2Scores (sqrtA : ℚ → ℚ) (store : Store) (qVec : List ℚ) (topK : Nat) : List ℚ :=
  ((stage1CandidateIdxs sqrtA store qVec topK).map
      (fun i => (store.map (fun e => e.2.vector)).getD i [])).map
    (fun m => cosSim sqrtA m qVec)

/-- Stage-2 final ordering (line 414):
`final_order = np.argsort(scores_full)[::-1][:top_k]` — positions into the
candidate list. -/
def finalOrder (sqrtA : ℚ → ℚ) (store : Store) (qVec : List ℚ) (topK : Nat) : List Nat :=
  (argsortDescIdx (stage2Scores sqrtA store qVec topK)).take topK

/-- `search` (lines 358–451).  An empty store returns `[]` before any
embedding call (lines 365–367); a query-embedding exception is caught and
also yields `[]` (lines 444–451); otherwise the two-stage funnel runs:
stage-1 shortlist on the first `SHORTLIST_DIM` components, stage-2 rerank
of the shortlisted rows at full dimension, top `top_k` returned with the
stored snippet, newlines replaced by spaces (line 424). -/
def searchImpl (sqrtA : ℚ → ℚ) (store : Store)
    (qEmbed : Except Unit (List ℚ)) (topK : Nat) : List SearchResult :=
  if store = [] then []
  else
    match qEmbed with
    | .error _ => []
    | .ok qVec =>
      (finalOrder sqrtA store qVec topK).map (fun idx =>
        let globalIdx := (stage1CandidateIdxs sqrtA store qVec topK).getD idx 0
        let path := (store.map Prod.fst).getD globalIdx ""
        let snippet :=
          match lookupKey store path with
          | some e => e.snippet.map (fun c => if c = '\n' then ' ' else c)
          | none => []
        { path := path, score := (stage2Scores sqrtA store qVec topK).getD idx 0,
          snippet := snippet })

/-! ### Lemmas about the argsort model and the funnel -/

theorem getD_mem_of_lt (l : List α) (i : Nat) (d : α) (h : i < l.length) : l.getD i d ∈ l := by
  induction l generalizing i with
  | nil => simp at h
  | cons a t ih =>
    cases i with
    | zero => simp
    | succ n =>
      simp only [List.getD_cons_succ]
      exact List.mem_cons_of_mem _ (ih n (by simpa using h))

theorem length_argsortDescIdx (s : List ℚ) : (argsortDescIdx s).length = s.length := by
  simp [argsortDescIdx]

theorem mem_argsortDescIdx {s : List ℚ} {i : Nat} : i ∈ argsortDescIdx s ↔ i < s.length := by
  simp [argsortDescIdx]

theorem sorted_argsortDescIdx (s : List ℚ) : List.Sorted (rDesc s) (argsortDescIdx s) :=
  List.sorted_insertionSort (rDesc s) (List.range s.length)

theorem argsort_take_sorted (s : List ℚ) (k : Nat) :
    List.Sorted (rDesc s) ((argsortDescIdx s).take k) :=
  List.Pairwise.sublist (List.take_sublist k _) (sorted_argsortDescIdx s)

theorem argsort_take_top (s : List ℚ) (k : Nat) :
    ∀ i ∈ (argsortDescIdx s).take k, ∀ j, j < s.length →
      j ∉ (argsortDescIdx s).take k → rDesc s i j := by
  intro i hi j hjlen hjnot
  have hsplit : argsortDescIdx s = (argsortDescIdx s).take k ++ (argsortDescIdx s).drop k :=
    (List.take_append_drop k _).symm
  have hsorted := sorted_argsortDescIdx s
  rw [hsplit] at hsorted
  have hcross := (List.pairwise_append.mp hsorted).2.2
  have hjmem : j ∈ argsortDescIdx s := mem_argsortDescIdx.mpr hjlen
  rw [hsplit] at hjmem
  rcases List.mem_append.mp hjmem with hj | hj
  · exact absurd hj hjnot
  · exact hcross i hi j hj

theorem length_stage1Scores (sqrtA : ℚ → ℚ) (store : Store) (qVec : List ℚ) :
    (stage1Scores sqrtA store qVec).length = store.length := by
  simp [stage1Scores]

theorem length_stage1CandidateIdxs (sqrtA : ℚ → ℚ) (store : Store) (qVec : List ℚ) (topK : Nat) :
    (stage1CandidateIdxs sqrtA store qVec topK).length
      = min (topK * SHORTLIST_FACTOR) store.length := by
  simp only [stage1CandidateIdxs, List.length_take, length_argsortDescIdx,
    length_stage1Scores]
  omega

theorem mem_stage1CandidateIdxs_lt {sqrtA : ℚ → ℚ} {store : Store} {qVec : List ℚ}
    {topK i : Nat} (h : i ∈ stage1CandidateIdxs sqrtA store qVec topK) : i < store.length := by
  have := List.mem_of_mem_take h
  rw [mem_argsortDescIdx, length_stage1Scores] at this
  exact this

theorem length_stage2Scores (sqrtA : ℚ → ℚ) (store : Store) (qVec : List ℚ) (topK : Nat) :
    (stage2Scores sqrtA store qVec topK).length
      = (stage1CandidateIdxs sqrtA store qVec topK).length := by
  simp [stage2Scores]

theorem mem_batchesOfFuel :
    ∀ (fuel : Nat) (l b : List α), b ∈ batchesOfFuel fuel l → ∀ x ∈ b, x ∈ l := by
  intro fuel
  induction fuel with
  | zero => intro l b hb; simp [batchesOfFuel] at hb
  | succ f ih =>
    intro l b hb y hy
    cases l with
    | nil => simp [batchesOfFuel] at hb
    | cons x r =>
      simp only [batchesOfFuel] at hb
      rcases List.mem_cons.mp hb with rfl | hb
      · rcases List.mem_cons.mp hy with rfl | hy
        · simp
        · exact List.mem_cons_of_mem _ (List.mem_of_mem_take hy)
      · exact List.mem_cons_of_mem _ (List.mem_of_mem_drop (ih _ b hb y hy))

theorem mem_batchesOf (l : List α) (b : List α) (hb : b ∈ batchesOf l) :
    ∀ x ∈ b, x ∈ l :=
  mem_batchesOfFuel l.length l b hb

theorem mem_enqueuePending {index : Store} {dimension : Nat}
    {chunks : List (String × Text)} {k : String} {c : Text} :
    (k, c) ∈ enqueuePending index dimension chunks →
    ∃ raw, (k, raw) ∈ chunks ∧ c = sanitize_content raw := by
  intro hmem
  rcases List.mem_filterMap.mp hmem with ⟨⟨k0, t0⟩, hin, heq⟩
  simp only at heq
  split at heq
  · simp at heq
  · split at heq
    · simp at heq
    · simp only [Option.some.injEq, Prod.mk.injEq] at heq
      exact ⟨t0, heq.1 ▸ hin, heq.2.symm⟩

theorem mem_zip3_proj {batch : List (String × Text)} :
    ∀ {vectors : List (List ℚ)} {p : String} {v : List ℚ} {t : Text},
    (p, v, t) ∈ zip3 (batch.map Prod.fst) vectors (batch.map Prod.snd) →
    (p, t) ∈ batch := by
  induction batch with
  | nil => intro vectors p v t hmem; simp [zip3] at hmem
  | cons b bs ih =>
    intro vectors p v t hmem
    cases vectors with
    | nil => simp [zip3] at hmem
    | cons w ws =>
      simp only [List.map_cons, zip3] at hmem
      rcases List.mem_cons.mp hmem with heq | hmem
      · simp only [Prod.mk.injEq] at heq
        obtain ⟨h1, _, h3⟩ := heq
        rw [h1, h3]
        simp
      · exact List.mem_cons_of_mem _ (ih hmem)

theorem mem_embedBatchWorker {batch : List (String × Text)}
    {resp : Except Unit (List (List ℚ))} {p : String} {v : List ℚ} {hsh sn : Text} :
    (p, v, hsh, sn) ∈ embedBatchWorker batch resp →
    ∃ t, (p, t) ∈ batch ∧ hsh = get_file_hash t ∧ sn = t.take 200 := by
  intro hmem
  cases resp with
  | error e => simp [embedBatchWorker] at hmem
  | ok vectors =>
    simp only [embedBatchWorker, List.mem_map] at hmem
    obtain ⟨⟨a, b, c⟩, hz, heq⟩ := hmem
    simp only [Prod.mk.injEq] at heq
    obtain ⟨h1, _, h3, h4⟩ := heq
    exact ⟨c, h1 ▸ mem_zip3_proj hz, h3.symm, h4.symm⟩

/-! ### Concrete fixtures for witnesses and counterexamples -/

/-- A square-root stand-in under which `norm + EPS = 1`, so normalization
is the identity and cosine similarity is the plain dot product. -/
def mockSqrt : ℚ → ℚ := fun _ => 1 - EPS

/-- A two-entry store with distinct stage-1 scores for query `[1]`. -/
def demoStore : Store :=
  [("k1", ⟨[1], [], "s1".toList⟩), ("k2", ⟨[0], [], "s2".toList⟩)]

/-- A two-entry store whose vectors are identical, so stage-1 scores tie. -/
def tieStore : Store :=
  [("a", ⟨[1], [], []⟩), ("b", ⟨[1], [], []⟩)]

/-- Sixteen entries with scores `0, …, 15` for query `[1]`, so that
`top_k = 1` gives a 15-element shortlist that excludes index 0. -/
def bigStore : Store :=
  (List.range 16).map (fun i => (toString i, ⟨[(i : ℚ)], [], []⟩))

/-! ### Claim theorems -/

/-- C1: the claim asserts that at every moment during `save_index` the
snapshot file is either the complete prior version or the complete new
version, and that a crash after the temp-file write but before the rename
leaves the prior snapshot intact.  The code (lines 88–91) instead unlinks
the prior snapshot *before* renaming the temp file, so in the state after
`unlink` and before `rename` the snapshot path holds nothing at all: a
crash in that window loses the prior snapshot, contradicting the claim
and the function's own "Atomic rename" comment.  Concretely, starting
from a filesystem whose snapshot file holds `0` and saving store `1`, the
third state of the trace has no snapshot file. -/
theorem save_unlink_window_not_atomic :
    ((saveTrace (⟨some 0, none⟩ : FsState Nat) 1 1).getD 2 ⟨none, none⟩).indexFile = none
    ∧ ¬ atomicSnapshot (⟨some 0, none⟩ : FsState Nat) 1 1 := by
  refine ⟨by decide, fun hA => ?_⟩
  have h2 := hA ((saveTrace (⟨some 0, none⟩ : FsState Nat) 1 1).getD 2 ⟨none, none⟩) (by decide)
  revert h2
  decide

/-- C2 counterexample: on a non-empty store, a query-embedding failure
makes `search` return `[]` — the empty result list — rather than an error
result, because the `except` handler at lines 444–451 swallows the
exception. -/
theorem search_query_failure_cex :
    demoStore ≠ [] ∧ searchImpl mockSqrt demoStore (Except.error ()) 5 = [] := by
  decide

/-- C2 amended: for every store and `top_k`, if the query-embedding call
raises, `search` catches the exception, logs it, and returns the empty
list — indistinguishable from a successful search with no results. -/
theorem search_query_failure_returns_empty (sqrtA : ℚ → ℚ) (store : Store) (topK : Nat) :
    searchImpl sqrtA store (Except.error ()) topK = [] := by
  unfold searchImpl
  split
  · rfl
  · rfl

/-- C9: `search` against an empty store returns `[]` without raising and
without consulting the embedding service — the result is `[]` for every
possible outcome `qEmbed` of the (never issued) embedding call, including
an exception. -/
theorem search_empty_store (sqrtA : ℚ → ℚ) (qEmbed : Except Unit (List ℚ)) (topK : Nat) :
    searchImpl sqrtA [] qEmbed topK = [] := by
  rfl

/-- C3: the incremental-check rule of `run_indexing` (lines 304–307).
First part: a chunk whose key is stored with hash equal to the digest of
its sanitized text and vector of the configured dimension is never
enqueued for embedding.  Second part: if every chunk of the scan (that
survives sanitization) passes that check — an unchanged file set indexed
a second time — the pending queue is empty, no batch is formed, and hence
zero embedding calls are issued. -/
theorem dedup_skip_and_zero_calls (index : Store) (dimension : Nat)
    (chunks : List (String × Text)) :
    (∀ key clean, upToDate index dimension key clean = true →
        (key, clean) ∉ enqueuePending index dimension chunks)
    ∧ ((∀ kt ∈ chunks, sanitize_content kt.2 ≠ [] →
          upToDate index dimension kt.1 (sanitize_content kt.2) = true) →
        batchesOf (enqueuePending index dimension chunks) = []) := by
  constructor
  · intro key clean hut hmem
    rcases List.mem_filterMap.mp hmem with ⟨⟨k0, t0⟩, hin, heq⟩
    simp only at heq
    split at heq
    · simp at heq
    · split at heq
      · simp at heq
      · rename_i hut0
        simp only [Option.some.injEq, Prod.mk.injEq] at heq
        rw [heq.1, heq.2] at hut0
        exact hut0 hut
  · intro hall
    have hempty : enqueuePending index dimension chunks = [] := by
      simp only [enqueuePending]
      rw [List.filterMap_eq_nil_iff]
      intro kt hkt
      obtain ⟨k0, t0⟩ := kt
      by_cases h0 : sanitize_content t0 = []
      · simp [h0]
      · have hut := hall (k0, t0) hkt h0
        simp only at hut
        simp [h0, hut]
    rw [hempty]
    rfl

/-- C3 witness: a one-chunk scan whose single chunk is already stored
with the matching digest and dimension produces zero batches. -/
theorem dedup_skip_and_zero_calls_witness :
    batchesOf (enqueuePending
      [("f.txt::main", ⟨[1, 2], get_file_hash (sanitize_content " hello  world ".toList),
        "hello".toList⟩)] 2
      [("f.txt::main", " hello  world ".toList)]) = [] :=
  (dedup_skip_and_zero_calls
    [("f.txt::main", ⟨[1, 2], get_file_hash (sanitize_content " hello  world ".toList),
      "hello".toList⟩)] 2
    [("f.txt::main", " hello  world ".toList)]).2 (by decide)

/-- C10: every record merged into the store during an indexing run comes
from `_embed_batch_worker` applied to a batch of the pending queue, whose
texts are the sanitized chunk texts; the stored snippet is `text[:200]`
of that sanitized text (line 170), hence exactly the first 200 characters
of the sanitized chunk text, of length at most 200 — and the stored hash
is the digest of the same sanitized text. -/
theorem snippet_spec (index : Store) (dimension : Nat) (chunks : List (String × Text))
    (batch : List (String × Text)) (resp : Except Unit (List (List ℚ)))
    (p : String) (v : List ℚ) (hsh sn : Text) :
    batch ∈ batchesOf (enqueuePending index dimension chunks) →
    (p, v, hsh, sn) ∈ embedBatchWorker batch resp →
    ∃ raw, (p, raw) ∈ chunks ∧ sn = (sanitize_content raw).take 200
      ∧ hsh = get_file_hash (sanitize_content raw) ∧ sn.length ≤ 200 := by
  intro hbatch hres
  obtain ⟨t, htb, hh, hs⟩ := mem_embedBatchWorker hres
  have hpend : (p, t) ∈ enqueuePending index dimension chunks :=
    mem_batchesOf _ batch hbatch (p, t) htb
  obtain ⟨raw, hraw, hclean⟩ := mem_enqueuePending hpend
  subst hclean
  refine ⟨raw, hraw, hs, hh, ?_⟩
  rw [hs]
  simp

/-- C10 witness: a fresh one-chunk run stores snippet
`(sanitize_content raw).take 200` for its chunk. -/
theorem snippet_spec_witness :
    ∃ raw, ("f.txt::main", raw) ∈ [("f.txt::main", " hi  there ".toList)]
      ∧ "hi there".toList = (sanitize_content raw).take 200
      ∧ "hi there".toList = get_file_hash (sanitize_content raw)
      ∧ ("hi there".toList).length ≤ 200 :=
  snippet_spec [] 1 [("f.txt::main", " hi  there ".toList)]
    [("f.txt::main", "hi there".toList)] (Except.ok [[1]])
    "f.txt::main" [1] "hi there".toList "hi there".toList (by decide) (by decide)

/-- C6: for every segment and every size limit, joining the chunk texts
produced by `_text_splitter` with newlines reproduces the segment
exactly — every line of the segment appears unaltered, in order, exactly
once, and no line is split mid-line. -/
theorem chunk_concat_exact (text baseId : Text) (limit : Nat) :
    joinNl ((textSplitter text baseId limit).map Prod.fst) = text := by
  unfold textSplitter
  split
  · simp [joinNl]
  · have hmap : ((chunkLines (splitNl text) limit).enum.map
        (fun p => (joinNl p.2, suffixIdx baseId p.1))).map Prod.fst
        = (chunkLines (splitNl text) limit).map joinNl := by
      rw [List.map_map]
      have : (Prod.fst ∘ fun p : Nat × List Text => (joinNl p.2, suffixIdx baseId p.1))
          = joinNl ∘ Prod.snd := rfl
      rw [this, ← List.map_map, List.enum_map_snd]
    rw [hmap]
    have hne : ∀ p ∈ chunkLines (splitNl text) limit, p ≠ [] :=
      fun p hp => chunkLinesGo_ne_nil limit (splitNl text) [] 0 p hp
    rw [joinNl_map_joinNl hne]
    have hflat : (chunkLines (splitNl text) limit).flatten = splitNl text := by
      simpa using chunkLinesGo_join limit (splitNl text) [] 0
    rw [hflat, joinNl_splitNl]

/-- C7 counterexample: with `size_limit = 5`, a segment consisting of a
single 7-character line is emitted as one chunk of length 7 > 5 — the
splitter never cuts inside a line, so an over-limit line yields an
over-limit chunk, refuting "every chunk has length at most size_limit". -/
theorem chunk_over_limit_cex :
    (textSplitter "aaaaaaa".toList "main".toList 5).map Prod.fst = ["aaaaaaa".toList]
    ∧ 5 < ("aaaaaaa".toList).length := by
  decide

/-- C7 amended: every chunk emitted by the chunker either consists of a
single (possibly over-limit) line or has length at most `size_limit`;
equivalently, every chunk that still contains a newline fits within the
limit.  A segment within the limit is emitted unchanged, and an
over-limit segment is split line-by-line with the running chunk flushed
whenever adding the next line would exceed the limit, but a single line
longer than the limit is emitted whole as its own over-limit chunk. -/
theorem chunk_size_bound (text baseId : Text) (limit : Nat) :
    ∀ c sfx, (c, sfx) ∈ textSplitter text baseId limit → '\n' ∈ c → c.length ≤ limit := by
  intro c sfx hmem hnl
  unfold textSplitter at hmem
  split at hmem
  · rcases List.mem_singleton.mp hmem with heq
    rename_i hfit
    rw [show c = text from congrArg Prod.fst heq]
    exact hfit
  · rcases List.mem_map.mp hmem with ⟨p, hp, heq⟩
    have hch : p.2 ∈ chunkLines (splitNl text) limit := by
      have := List.mem_map_of_mem Prod.snd hp
      rwa [List.enum_map_snd] at this
    have hcne : p.2 ≠ [] := chunkLinesGo_ne_nil limit (splitNl text) [] 0 p.2 hch
    have hcj : c = joinNl p.2 := (congrArg Prod.fst heq).symm
    -- a chunk containing a newline has at least two lines,
    -- since no line of the segment contains a newline
    have htwo : 2 ≤ p.2.length := by
      match hp2 : p.2, hcne with
      | [l], _ =>
        rw [hp2] at hcj
        have hlin : l ∈ splitNl text := mem_chunkLines_sub limit (splitNl text) p.2 hch l (by simp [hp2])
        have := mem_splitNl_no_newline text l hlin
        rw [hcj] at hnl
        exact absurd hnl (by simpa [joinNl] using this)
      | l1 :: l2 :: t, _ => simp
    have hbound := chunkLinesGo_bound limit (splitNl text) [] 0 rfl (Or.inl (by simp))
      p.2 hch
    have hsum : sumLen p.2 ≤ limit := by
      rcases hbound with hlen | hsum
      · omega
      · exact hsum
    have hjl := joinNl_length hcne
    rw [hcj]
    omega

/-- C7 amended witness: with `size_limit = 7`, the multi-line chunk
`"aaa\nbb"` produced from `"aaa\nbb\ncccc\ndd"` fits within the limit. -/
theorem chunk_size_bound_witness :
    ("aaa\nbb".toList).length ≤ 7 :=
  chunk_size_bound "aaa\nbb\ncccc\ndd".toList "main".toList 7
    "aaa\nbb".toList "::main[0]".toList (by decide) (by decide)

/-- C4: every record returned by stage 2 of `search` carries a key drawn
from the stage-1 shortlist — `final_order` indexes into `candidate_idxs`,
so the funnel can only return, score and rank stage-1 candidates. -/
theorem funnel_subset (sqrtA : ℚ → ℚ) (store : Store) (qVec : List ℚ) (topK : Nat) :
    ∀ r ∈ searchImpl sqrtA store (Except.ok qVec) topK,
      r.path ∈ stage1CandidateKeys sqrtA store qVec topK := by
  intro r hr
  unfold searchImpl at hr
  split at hr
  · simp at hr
  · simp only [List.mem_map] at hr
    obtain ⟨idx, hidx, heq⟩ := hr
    have hlt : idx < (stage1CandidateIdxs sqrtA store qVec topK).length := by
      have h1 := List.mem_of_mem_take (by exact hidx)
      rw [mem_argsortDescIdx, length_stage2Scores] at h1
      exact h1
    rw [← heq]
    exact List.mem_map.mpr ⟨(stage1CandidateIdxs sqrtA store qVec topK).getD idx 0,
      getD_mem_of_lt _ idx 0 hlt, rfl⟩

attribute [local semireducible] Rat.add Rat.sub Rat.mul Rat.inv Rat.ofScientific in
/-- C4 witness: on the concrete two-entry store, the returned record's
key is a stage-1 candidate key. -/
theorem funnel_subset_witness :
    "k1" ∈ stage1CandidateKeys mockSqrt demoStore [1] 1 :=
  funnel_subset mockSqrt demoStore [1] 1
    ⟨"k1", 1, "s1".toList⟩ (by decide)

/-- C8: `search` on a successful query embedding returns at most `top_k`
records, sorted by non-increasing score, and exactly `top_k` records
whenever the store holds at least `top_k` entries. -/
theorem search_contract (sqrtA : ℚ → ℚ) (store : Store) (qVec : List ℚ) (topK : Nat) :
    (searchImpl sqrtA store (Except.ok qVec) topK).length ≤ topK
    ∧ List.Sorted (fun a b : SearchResult => b.score ≤ a.score)
        (searchImpl sqrtA store (Except.ok qVec) topK)
    ∧ (topK ≤ store.length → (searchImpl sqrtA store (Except.ok qVec) topK).length = topK) := by
  by_cases hemp : store = []
  · subst hemp
    refine ⟨by simp [searchImpl], by simp [searchImpl], fun hk => ?_⟩
    simp only [List.length_nil, Nat.le_zero] at hk
    simp [searchImpl, hk]
  · have hlen : (searchImpl sqrtA store (Except.ok qVec) topK).length
        = min topK (min (topK * SHORTLIST_FACTOR) store.length) := by
      unfold searchImpl
      rw [if_neg hemp]
      simp only [List.length_map]
      unfold finalOrder
      rw [List.length_take, length_argsortDescIdx, length_stage2Scores,
        length_stage1CandidateIdxs]
    refine ⟨by rw [hlen]; omega, ?_, fun hk => ?_⟩
    · have hsorted : List.Sorted (rDesc (stage2Scores sqrtA store qVec topK))
          (finalOrder sqrtA store qVec topK) := argsort_take_sorted _ _
      unfold searchImpl
      rw [if_neg hemp]
      refine List.Pairwise.map _ ?_ hsorted
      intro a b hab
      show (stage2Scores sqrtA store qVec topK).getD b 0
        ≤ (stage2Scores sqrtA store qVec topK).getD a 0
      rcases hab with h | ⟨h, _⟩
      · exact le_of_lt h
      · exact le_of_eq h.symm
    · rw [hlen]
      simp only [SHORTLIST_FACTOR]
      omega

/-- C8 witness: the two-entry store with `top_k = 1` returns exactly one
record. -/
theorem search_contract_witness :
    (searchImpl mockSqrt demoStore (Except.ok [1]) 1).length = 1 :=
  (search_contract mockSqrt demoStore [1] 1).2.2 (by decide)

attribute [local semireducible] Rat.add Rat.sub Rat.mul Rat.inv Rat.ofScientific in
/-- C5 counterexample: two stored vectors with identical stage-1 scores.
The code computes `np.argsort(scores_short)[::-1]`, which reverses the
(at best stable) ascending sort, so the shortlist lists index 1 *before*
index 0 — the tie is broken in favor of the *later* position in the
derived key-list ordering, not the earlier one as claimed. -/
theorem stage1_tiebreak_cex :
    stage1Scores mockSqrt tieStore [1] = [1, 1]
    ∧ stage1CandidateIdxs mockSqrt tieStore [1] 1 = [1, 0] := by
  decide

/-- C5 amended: the stage-1 shortlist consists of the indices of the top
`min(top_k * shortlist_factor, total_count)` low-dimension scores in
descending order — every shortlisted index beats every non-shortlisted
one — but ties between equal scores are broken in favor of the *later*
position in the derived key-list ordering (`rDesc` orders equal scores by
descending index), because the code reverses a stable ascending argsort;
numpy's default quicksort does not even guarantee stability, so no
earlier-position rule holds. -/
theorem stage1_shortlist_spec (sqrtA : ℚ → ℚ) (store : Store) (qVec : List ℚ) (topK : Nat) :
    (stage1CandidateIdxs sqrtA store qVec topK).length
        = min (topK * SHORTLIST_FACTOR) store.length
    ∧ List.Sorted (rDesc (stage1Scores sqrtA store qVec))
        (stage1CandidateIdxs sqrtA store qVec topK)
    ∧ (∀ i ∈ stage1CandidateIdxs sqrtA store qVec topK, ∀ j, j < store.length →
        j ∉ stage1CandidateIdxs sqrtA store qVec topK →
        rDesc (stage1Scores sqrtA store qVec) i j) := by
  refine ⟨length_stage1CandidateIdxs sqrtA store qVec topK, argsort_take_sorted _ _, ?_⟩
  intro i hi j hjlen hjnot
  exact argsort_take_top (stage1Scores sqrtA store qVec)
    (min (topK * SHORTLIST_FACTOR) store.length) i hi j
    (by rw [length_stage1Scores]; exact hjlen) hjnot

attribute [local semireducible] Rat.add Rat.sub Rat.mul Rat.inv Rat.ofScientific in
/-- C5 amended witness: in the sixteen-entry store with `top_k = 1` the
shortlist has 15 entries; index 15 is shortlisted, index 0 is not, and
the shortlisted index beats the excluded one under the stage-1 order. -/
theorem stage1_shortlist_spec_witness :
    rDesc (stage1Scores mockSqrt bigStore [1]) 15 0 :=
  (stage1_shortlist_spec mockSqrt bigStore [1] 1).2.2 15 (by decide) 0 (by decide) (by decide)

end K3MRL
